import Mathlib

/-!
Verification of the `hasher` tool: a Merkle-tree SHA-256 digest over a
filesystem hierarchy.  The Rust source (`src/main.rs`) is shallowly embedded
here: Rust strings and paths become lists of bytes (`List Nat`, each < 256 at
the points where it matters), the SHA-256 function of the external `sha2`
crate is implemented in full (padding, message schedule, compression), and
the crate's incremental hasher is modelled by its observable contract: the
state buffers the bytes fed by `update`, and `finalize` digests the
concatenation.  The filesystem is a tree datatype with explicit node kinds
for the failure modes the walker can meet (unreadable metadata, unsupported
node types, unreadable directories).
-/

set_option maxHeartbeats 1000000

/-- Bytes of a Rust `String`, `&[u8]` buffer or `Path`, in order. -/
abbrev ByteStr := List Nat

/-! ## Word-level primitives for SHA-256 (32-bit words as `Nat` mod 2^32) -/

/-- The 32-bit modulus. -/
def M32 : Nat := 4294967296

/-- Right rotation of a 32-bit word. -/
def rotr32 (x n : Nat) : Nat := ((x >>> n) ||| (x <<< (32 - n))) % M32

/-- SHA-256 `Ch` function. -/
def ch32 (x y z : Nat) : Nat := (x &&& y) ^^^ ((x ^^^ 4294967295) &&& z)

/-- SHA-256 `Maj` function. -/
def maj32 (x y z : Nat) : Nat := (x &&& y) ^^^ (x &&& z) ^^^ (y &&& z)

/-- SHA-256 big sigma 0. -/
def bsig0 (x : Nat) : Nat := rotr32 x 2 ^^^ rotr32 x 13 ^^^ rotr32 x 22

/-- SHA-256 big sigma 1. -/
def bsig1 (x : Nat) : Nat := rotr32 x 6 ^^^ rotr32 x 11 ^^^ rotr32 x 25

/-- SHA-256 small sigma 0. -/
def ssig0 (x : Nat) : Nat := rotr32 x 7 ^^^ rotr32 x 18 ^^^ (x >>> 3)

/-- SHA-256 small sigma 1. -/
def ssig1 (x : Nat) : Nat := rotr32 x 17 ^^^ rotr32 x 19 ^^^ (x >>> 10)

/-- The 64 SHA-256 round constants, written in decimal. -/
def Kconst : List Nat :=
  [1116352408, 1899447441, 3049323471, 3921009573, 961987163,
   1508970993, 2453635748, 2870763221, 3624381080, 310598401,
   607225278, 1426881987, 1925078388, 2162078206, 2614888103,
   3248222580, 3835390401, 4022224774, 264347078, 604807628,
   770255983, 1249150122, 1555081692, 1996064986, 2554220882,
   2821834349, 2952996808, 3210313671, 3336571891, 3584528711,
   113926993, 338241895, 666307205, 773529912, 1294757372,
   1396182291, 1695183700, 1986661051, 2177026350, 2456956037,
   2730485921, 2820302411, 3259730800, 3345764771, 3516065817,
   3600352804, 4094571909, 275423344, 430227734, 506948616,
   659060556, 883997877, 958139571, 1322822218, 1537002063,
   1747873779, 1955562222, 2024104815, 2227730452, 2361852424,
   2428436474, 2756734187, 3204031479, 3329325298]

/-- The initial SHA-256 hash state, written in decimal. -/
def H0 : List Nat :=
  [1779033703, 3144134277, 1013904242, 2773480762,
   1359893119, 2600822924, 528734635, 1541459225]

/-- Big-endian byte rendering of `v` on `k` bytes. -/
def beBytes : Nat → Nat → List Nat
  | 0, _ => []
  | k + 1, v => (v >>> (8 * k)) % 256 :: beBytes k v

/-- A big-endian 32-bit word from a list of bytes. -/
def wordOfBytes (bs : List Nat) : Nat := bs.foldl (fun acc b => acc * 256 + b) 0

/-- Split a list into consecutive chunks of `k` elements; the final chunk may
be shorter.  Mirrors Rust `slice::chunks`. -/
def chunksOf (k : Nat) (l : List α) : List (List α) :=
  match l with
  | [] => []
  | x :: xs =>
    if h : k = 0 then []
    else (x :: xs).take k :: chunksOf k ((x :: xs).drop k)
termination_by l.length
decreasing_by
  simp only [List.length_drop, List.length_cons]
  omega

/-- One step of the SHA-256 message-schedule extension; `ws` holds the words
produced so far, most recent first. -/
def schedStep (ws : List Nat) : Nat :=
  (ssig1 (ws.getD 1 0) + ws.getD 6 0 + ssig0 (ws.getD 14 0) + ws.getD 15 0) % M32

/-- Extend the message schedule `n` more words, most recent first. -/
def schedRec : Nat → List Nat → List Nat
  | 0, ws => ws
  | n + 1, ws => schedRec n (schedStep ws :: ws)

/-- The 64-word message schedule from the 16 words of one block. -/
def schedule (first16 : List Nat) : List Nat := (schedRec 48 first16.reverse).reverse

/-- One SHA-256 compression round on the 8-word working state. -/
def compressRound (st : List Nat) (w k : Nat) : List Nat :=
  let a := st.getD 0 0
  let b := st.getD 1 0
  let c := st.getD 2 0
  let d := st.getD 3 0
  let e := st.getD 4 0
  let f := st.getD 5 0
  let g := st.getD 6 0
  let h := st.getD 7 0
  let t1 := (h + bsig1 e + ch32 e f g + k + w) % M32
  let t2 := (bsig0 a + maj32 a b c) % M32
  [(t1 + t2) % M32, a, b, c, (d + t1) % M32, e, f, g]

/-- Compress one 64-byte block into the running 8-word hash state. -/
def compressBlock (H : List Nat) (block : List Nat) : List Nat :=
  let ws := schedule ((chunksOf 4 block).map wordOfBytes)
  let s := (ws.zip Kconst).foldl (fun st wk => compressRound st wk.1 wk.2) H
  (H.zip s).map (fun p => (p.1 + p.2) % M32)

/-- SHA-256 padding: a 0x80 byte, zeros to 56 mod 64, and the bit length on
8 big-endian bytes. -/
def padMsg (msg : ByteStr) : ByteStr :=
  msg ++ 128 :: List.replicate ((64 - (msg.length + 9) % 64) % 64) 0
      ++ beBytes 8 (msg.length * 8)

/-- Full SHA-256 over a byte string, producing the 32 digest bytes. -/
def sha256 (msg : ByteStr) : ByteStr :=
  (((chunksOf 64 (padMsg msg)).foldl compressBlock H0).map (beBytes 4)).flatten

/-! ## Lowercase hexadecimal rendering (`hex::encode`) -/

/-- The lowercase-hex ASCII byte of a nibble. -/
def hexDigitByte (n : Nat) : Nat := if n < 10 then 48 + n else 87 + n

/-- Lowercase hexadecimal rendering of a byte string, as ASCII bytes;
mirrors `hex::encode`. -/
def hexEncode (l : ByteStr) : ByteStr :=
  (l.map (fun b => [hexDigitByte (b / 16), hexDigitByte (b % 16)])).flatten

/-! ## The incremental hasher of the `sha2` crate

The crate's `Sha256` state is modelled by its observable contract: the bytes
fed so far.  `finalize` digests their concatenation, and `Sha256::digest` is
the one-shot form. -/

/-- The incremental SHA-256 hasher state: the bytes received so far. -/
structure Sha256 where
  data : ByteStr

/-- Fresh hasher, `Sha256::new()`. -/
def Sha256.new : Sha256 := ⟨[]⟩

/-- Feed bytes, `Sha256::update`. -/
def Sha256.update (h : Sha256) (chunk : ByteStr) : Sha256 := ⟨h.data ++ chunk⟩

/-- Produce the digest bytes, `Sha256::finalize`. -/
def Sha256.finalize (h : Sha256) : ByteStr := sha256 h.data

/-- One-shot digest, `Sha256::digest`. -/
def Sha256.digestBytes (b : ByteStr) : ByteStr := sha256 b

/-! ## The Merkle combiner (`build_merkle_hash`) -/

/-- The serialized line of one `(filename, digest-string)` entry:
`filename`, one ASCII space (32), the digest string, one newline (10).
This is the byte sequence of Rust `format!("{} {}\n", filename, hash)`. -/
def serEntry (e : ByteStr × ByteStr) : ByteStr := e.1 ++ 32 :: (e.2 ++ [10])

/-- The byte string the combiner feeds to SHA-256: the state of the running
hasher after all entries are appended. -/
def merkleInput (entries : List (ByteStr × ByteStr)) : ByteStr :=
  (entries.foldl (fun h e => h.update (serEntry e)) Sha256.new).data

/-- The Merkle combiner of `src/main.rs`: fold every entry's serialized line
into a running SHA-256 state, finalize, and render as lowercase hex. -/
def build_merkle_hash (entries : List (ByteStr × ByteStr)) : ByteStr :=
  hexEncode ((entries.foldl (fun h e => h.update (serEntry e)) Sha256.new).finalize)

/-! ## Basic facts about the primitives -/

theorem beBytes_length (k v : Nat) : (beBytes k v).length = k := by
  induction k generalizing v with
  | zero => rfl
  | succ k ih => simp [beBytes, ih]

theorem beBytes_lt (k v : Nat) : ∀ b ∈ beBytes k v, b < 256 := by
  induction k generalizing v with
  | zero => simp [beBytes]
  | succ k ih =>
    intro b hb
    simp only [beBytes, List.mem_cons] at hb
    rcases hb with h | h
    · omega
    · exact ih v b h

theorem compressRound_length (st : List Nat) (w k : Nat) :
    (compressRound st w k).length = 8 := by
  simp [compressRound]

theorem foldl_compressRound_length (l : List (Nat × Nat)) (st : List Nat)
    (h : st.length = 8) :
    (l.foldl (fun s wk => compressRound s wk.1 wk.2) st).length = 8 := by
  induction l generalizing st with
  | nil => exact h
  | cons x xs ih => exact ih _ (compressRound_length _ _ _)

theorem compressBlock_length (H block : List Nat) (h : H.length = 8) :
    (compressBlock H block).length = 8 := by
  unfold compressBlock
  rw [List.length_map, List.length_zip, h,
    foldl_compressRound_length _ _ h]
  simp

theorem foldl_compressBlock_length (blocks : List (List Nat)) (H : List Nat)
    (h : H.length = 8) :
    (blocks.foldl compressBlock H).length = 8 := by
  induction blocks generalizing H with
  | nil => exact h
  | cons b bs ih => exact ih _ (compressBlock_length _ _ h)

theorem join_map_beBytes_length (l : List Nat) :
    ((l.map (beBytes 4)).flatten).length = 4 * l.length := by
  induction l with
  | nil => simp
  | cons x xs ih => simp [ih, beBytes_length]; omega

/-- The SHA-256 digest always has 32 bytes. -/
theorem sha256_length (msg : ByteStr) : (sha256 msg).length = 32 := by
  unfold sha256
  rw [join_map_beBytes_length, foldl_compressBlock_length _ _ (by rfl)]

/-- Every byte of a SHA-256 digest is below 256. -/
theorem sha256_lt (msg : ByteStr) : ∀ b ∈ sha256 msg, b < 256 := by
  intro b hb
  unfold sha256 at hb
  rw [List.mem_flatten] at hb
  obtain ⟨l, hl, hbl⟩ := hb
  rw [List.mem_map] at hl
  obtain ⟨w, _, rfl⟩ := hl
  exact beBytes_lt 4 w b hbl

theorem hexEncode_length (l : ByteStr) : (hexEncode l).length = 2 * l.length := by
  induction l with
  | nil => rfl
  | cons x xs ih => simp [hexEncode] at ih ⊢; omega

/-- A byte is a lowercase-hex ASCII character: a digit `0`-`9` or a letter
`a`-`f`. -/
def isLowerHexByte (c : Nat) : Prop := (48 ≤ c ∧ c ≤ 57) ∨ (97 ≤ c ∧ c ≤ 102)

theorem hexDigitByte_lowerHex (n : Nat) (h : n < 16) :
    isLowerHexByte (hexDigitByte n) := by
  unfold hexDigitByte isLowerHexByte
  split <;> omega

theorem hexEncode_lowerHex (l : ByteStr) (hl : ∀ b ∈ l, b < 256) :
    ∀ c ∈ hexEncode l, isLowerHexByte c := by
  intro c hc
  unfold hexEncode at hc
  rw [List.mem_flatten] at hc
  obtain ⟨pair, hp, hcp⟩ := hc
  rw [List.mem_map] at hp
  obtain ⟨b, hb, rfl⟩ := hp
  have hblt := hl b hb
  simp only [List.mem_cons, List.not_mem_nil, or_false] at hcp
  rcases hcp with rfl | rfl
  · exact hexDigitByte_lowerHex _ (Nat.div_lt_of_lt_mul (by omega))
  · exact hexDigitByte_lowerHex _ (Nat.mod_lt _ (by omega))

/-- Chunking and rejoining is the identity for a positive chunk size. -/
theorem chunksOf_join (k : Nat) (hk : k ≠ 0) (l : List α) :
    (chunksOf k l).flatten = l := by
  match l with
  | [] => simp [chunksOf]
  | x :: xs =>
    rw [chunksOf]
    simp only [hk, dite_false]
    rw [List.flatten_cons, chunksOf_join k hk ((x :: xs).drop k),
      List.take_append_drop]
termination_by l.length
decreasing_by
  simp only [List.length_drop, List.length_cons]
  omega

/-- Folding `update` over a chunk list accumulates the concatenation. -/
theorem foldl_update_data (cs : List ByteStr) (init : ByteStr) :
    ((cs.foldl (fun h c => h.update c) ⟨init⟩ : Sha256)).data = init ++ cs.flatten := by
  induction cs generalizing init with
  | nil => simp
  | cons c cs ih =>
    rw [List.foldl_cons]
    show ((cs.foldl (fun h c => h.update c) ⟨init ++ c⟩ : Sha256)).data = _
    rw [ih, List.flatten_cons, List.append_assoc]

/-- The combiner's running state accumulates exactly the serialized lines. -/
theorem merkleInput_eq (entries : List (ByteStr × ByteStr)) :
    merkleInput entries = (entries.map serEntry).flatten := by
  have h : ∀ (l : List (ByteStr × ByteStr)) (init : ByteStr),
      ((l.foldl (fun h e => h.update (serEntry e)) ⟨init⟩ : Sha256)).data
        = init ++ (l.map serEntry).flatten := by
    intro l
    induction l with
    | nil => simp
    | cons e es ih =>
      intro init
      rw [List.foldl_cons]
      show ((es.foldl (fun h e => h.update (serEntry e)) ⟨init ++ serEntry e⟩ : Sha256)).data = _
      rw [ih, List.map_cons, List.flatten_cons, List.append_assoc]
  simpa [merkleInput, Sha256.new] using h entries []

theorem build_merkle_hash_eq_input (entries : List (ByteStr × ByteStr)) :
    build_merkle_hash entries = hexEncode (sha256 (merkleInput entries)) := rfl

/-! ## The filesystem model

A tree node for each way the walker can classify a path.  `statFail` is a
path whose metadata cannot be read, `other` a path that is neither file,
directory nor symlink (device node, FIFO), and `unreadableDir` a directory
whose enumeration fails. -/

inductive FSTree where
  | file (content : ByteStr)
  | dir (children : List (ByteStr × FSTree))
  | symlink (target : ByteStr)
  | other
  | statFail
  | unreadableDir

/-! ## Byte-wise lexicographic order on names (Rust `OsString` ordering) -/

/-- Byte-wise lexicographic comparison of names, as Rust orders `OsString`
keys in `sort_by_key`. -/
def lexLe : List Nat → List Nat → Bool
  | [], _ => true
  | _ :: _, [] => false
  | x :: xs, y :: ys => if x < y then true else if y < x then false else lexLe xs ys

theorem lexLe_total : ∀ a b : List Nat, lexLe a b = true ∨ lexLe b a = true
  | [], _ => Or.inl rfl
  | _ :: _, [] => Or.inr rfl
  | x :: xs, y :: ys => by
    simp only [lexLe]
    rcases Nat.lt_trichotomy x y with h | h | h
    · left; simp [h]
    · subst h
      simp only [Nat.lt_irrefl, if_false]
      exact lexLe_total xs ys
    · right; simp [h, Nat.lt_asymm h]

theorem lexLe_trans : ∀ a b c : List Nat,
    lexLe a b = true → lexLe b c = true → lexLe a c = true
  | [], _, _, _, _ => rfl
  | _ :: _, [], _, hab, _ => by simp [lexLe] at hab
  | _ :: _, _ :: _, [], _, hbc => by simp [lexLe] at hbc
  | x :: xs, y :: ys, z :: zs, hab, hbc => by
    simp only [lexLe] at hab hbc ⊢
    split_ifs at hab hbc ⊢ <;> try rfl
    all_goals try omega
    all_goals try simp_all
    all_goals exact lexLe_trans xs ys zs hab hbc

theorem lexLe_antisymm : ∀ a b : List Nat,
    lexLe a b = true → lexLe b a = true → a = b
  | [], [], _, _ => rfl
  | [], _ :: _, _, hba => by simp [lexLe] at hba
  | _ :: _, [], hab, _ => by simp [lexLe] at hab
  | x :: xs, y :: ys, hab, hba => by
    simp only [lexLe] at hab hba
    by_cases hxy : x < y
    · simp [hxy, Nat.lt_asymm hxy] at hba
    · by_cases hyx : y < x
      · simp [hyx, Nat.lt_asymm hyx] at hab
      · have hx : x = y := by omega
        subst hx
        simp only [Nat.lt_irrefl, if_false] at hab hba
        rw [lexLe_antisymm xs ys hab hba]

/-- The sort key relation used on directory entries: compare the filename
bytes. -/
def entryLe (a b : ByteStr × FSTree) : Prop := lexLe a.1 b.1 = true

instance : DecidableRel entryLe := fun a b => by
  unfold entryLe; infer_instance

instance : IsTotal (ByteStr × FSTree) entryLe :=
  ⟨fun a b => lexLe_total a.1 b.1⟩

instance : IsTrans (ByteStr × FSTree) entryLe :=
  ⟨fun a b c => lexLe_trans a.1 b.1 c.1⟩

/-- Sorting of the enumerated children, `entries.sort_by_key(|e| e.file_name())`:
a stable sort whose key is the raw filename bytes. -/
def sortEntries (l : List (ByteStr × FSTree)) : List (ByteStr × FSTree) :=
  List.insertionSort entryLe l

theorem perm_sortEntries (l : List (ByteStr × FSTree)) : (sortEntries l).Perm l :=
  List.perm_insertionSort entryLe l

theorem perm_sizeOf {α} [SizeOf α] {l1 l2 : List α} (h : l1.Perm l2) :
    sizeOf l1 = sizeOf l2 := by
  induction h with
  | nil => rfl
  | cons x _ ih => simp only [List.cons.sizeOf_spec]; omega
  | swap x y l => simp only [List.cons.sizeOf_spec]; omega
  | trans _ _ ih1 ih2 => omega

theorem sizeOf_sortEntries (cs : List (ByteStr × FSTree)) :
    sizeOf (sortEntries cs) = sizeOf cs :=
  perm_sizeOf (perm_sortEntries cs)

/-! ## UTF-8 validity (Rust `to_str`) -/

/-- RFC 3629 UTF-8 validity of a byte sequence: what Rust `OsStr::to_str`
accepts.  Overlong forms, surrogates and values above U+10FFFF are
rejected. -/
def validUtf8 : List Nat → Bool
  | [] => true
  | b :: rest =>
    if b < 128 then validUtf8 rest
    else if 194 ≤ b ∧ b ≤ 223 then
      match rest with
      | c :: rest2 => if 128 ≤ c ∧ c ≤ 191 then validUtf8 rest2 else false
      | [] => false
    else if b = 224 then
      match rest with
      | c :: d :: rest2 =>
        if (160 ≤ c ∧ c ≤ 191) ∧ (128 ≤ d ∧ d ≤ 191) then validUtf8 rest2 else false
      | _ => false
    else if 225 ≤ b ∧ b ≤ 236 then
      match rest with
      | c :: d :: rest2 =>
        if (128 ≤ c ∧ c ≤ 191) ∧ (128 ≤ d ∧ d ≤ 191) then validUtf8 rest2 else false
      | _ => false
    else if b = 237 then
      match rest with
      | c :: d :: rest2 =>
        if (128 ≤ c ∧ c ≤ 159) ∧ (128 ≤ d ∧ d ≤ 191) then validUtf8 rest2 else false
      | _ => false
    else if 238 ≤ b ∧ b ≤ 239 then
      match rest with
      | c :: d :: rest2 =>
        if (128 ≤ c ∧ c ≤ 191) ∧ (128 ≤ d ∧ d ≤ 191) then validUtf8 rest2 else false
      | _ => false
    else if b = 240 then
      match rest with
      | c :: d :: e :: rest2 =>
        if (144 ≤ c ∧ c ≤ 191) ∧ (128 ≤ d ∧ d ≤ 191) ∧ (128 ≤ e ∧ e ≤ 191) then
          validUtf8 rest2 else false
      | _ => false
    else if 241 ≤ b ∧ b ≤ 243 then
      match rest with
      | c :: d :: e :: rest2 =>
        if (128 ≤ c ∧ c ≤ 191) ∧ (128 ≤ d ∧ d ≤ 191) ∧ (128 ≤ e ∧ e ≤ 191) then
          validUtf8 rest2 else false
      | _ => false
    else if b = 244 then
      match rest with
      | c :: d :: e :: rest2 =>
        if (128 ≤ c ∧ c ≤ 143) ∧ (128 ≤ d ∧ d ≤ 191) ∧ (128 ≤ e ∧ e ≤ 191) then
          validUtf8 rest2 else false
      | _ => false
    else false

/-! ## Path components (Rust `Path::file_name`) -/

/-- The bytes after the last path separator (47, the ASCII slash). -/
def lastComponent (p : ByteStr) : ByteStr :=
  (p.reverse.takeWhile (fun b => b != 47)).reverse

/-- Models `Path::file_name` on the paths the walker builds: the final
component after the last separator; `none` when that component is empty or
a current- or parent-directory marker. -/
def fileName (p : ByteStr) : Option ByteStr :=
  let base := lastComponent p
  if base = [] ∨ base = [46] ∨ base = [46, 46] then none else some base

/-- A filename as produced by `read_dir`: nonempty, free of separators and
NUL, not a directory marker, and valid UTF-8 (so `to_str` accepts it). -/
def validName (n : ByteStr) : Prop :=
  n ≠ [] ∧ 47 ∉ n ∧ n ≠ [46] ∧ n ≠ [46, 46] ∧ validUtf8 n = true

instance (n : ByteStr) : Decidable (validName n) := by
  unfold validName; infer_instance

/-! ## Errors and results of the walker -/

/-- The failure kinds the tool can report (spec section 7). -/
inductive HashError where
  | ioError
  | metadataError
  | unsupportedType
  | enumerationFailed
  | invalidEncoding
deriving DecidableEq

/-- A filesystem path paired with its digest, the `HashResult` struct. -/
structure HashResult where
  path : ByteStr
  hash : ByteStr
deriving DecidableEq

/-- The tag of a verbose trace line. -/
inductive TraceTag where
  | file
  | dir
  | link
deriving DecidableEq

/-- One verbose trace line: tag, path and digest. -/
abbrev TraceLine := TraceTag × ByteStr × ByteStr

/-- The metadata record returned by `fs::symlink_metadata`: the link's own
type flags (never the target's) and the byte length. -/
structure Metadata where
  is_symlink : Bool
  is_file : Bool
  is_dir : Bool
  len : Nat

/-- Models `fs::symlink_metadata`: classifies the node itself without
following symlinks; fails when the metadata cannot be read. -/
def symlink_metadata : FSTree → Except HashError Metadata
  | .statFail => .error HashError.metadataError
  | .symlink _ => .ok ⟨true, false, false, 0⟩
  | .file c => .ok ⟨false, true, false, c.length⟩
  | .dir _ => .ok ⟨false, false, true, 0⟩
  | .unreadableDir => .ok ⟨false, false, true, 0⟩
  | .other => .ok ⟨false, false, false, 0⟩

/-- Files at most this many bytes are read whole; larger ones are memory
mapped and hashed in chunks. -/
def LARGE_FILE_THRESHOLD : Nat := 1024 * 1024

/-- The fixed chunk size of the memory-mapped hashing loop. -/
def CHUNK_SIZE : Nat := 64 * 1024

/-- Models `hash_symlink`: read the raw link target, require it to be valid
UTF-8, and digest its bytes with the plain content hasher. -/
def hash_symlink : FSTree → Except HashError ByteStr
  | .symlink target =>
    if validUtf8 target then .ok (hexEncode (Sha256.digestBytes target))
    else .error HashError.invalidEncoding
  | _ => .error HashError.ioError

/-- Models `hash_small_file`: read the whole content and digest it in one
call. -/
def hash_small_file : FSTree → Except HashError ByteStr
  | .file content => .ok (hexEncode (Sha256.digestBytes content))
  | _ => .error HashError.ioError

/-- Models `hash_large_file`: map the content and feed it to the incremental
hasher in `CHUNK_SIZE` chunks, then finalize. -/
def hash_large_file : FSTree → Except HashError ByteStr
  | .file content =>
    .ok (hexEncode (((chunksOf CHUNK_SIZE content).foldl
      (fun h chunk => h.update chunk) Sha256.new).finalize))
  | _ => .error HashError.ioError

/-! ## Collecting child results

`collectExcept` is the sequential `collect::<Result<Vec<_>>>`.  `parCollect`
models rayon's parallel collect: the `completion` list is the order in which
workers happen to finish the tasks; the first failure in completion order
aborts, and on success the values are gathered by original position, not by
completion order. -/

/-- Sequential collect of task results, short-circuiting at the first
error. -/
def collectExcept {E A : Type} : List (Except E A) → Except E (List A)
  | [] => .ok []
  | .error e :: _ => .error e
  | .ok a :: rest =>
    match collectExcept rest with
    | .error e => .error e
    | .ok rs => .ok (a :: rs)

/-- Map a fallible function over a list, short-circuiting at the first
error. -/
def mapExcept {A B E : Type} (f : A → Except E B) : List A → Except E (List B)
  | [] => .ok []
  | a :: rest =>
    match f a with
    | .error e => .error e
    | .ok b =>
      match mapExcept f rest with
      | .error e => .error e
      | .ok bs => .ok (b :: bs)

/-- The value of a successful task. -/
def exceptValue {E A : Type} : Except E A → Option A
  | .ok a => some a
  | .error _ => none

/-- The first failing task in completion order, if any. -/
def firstErrBy {E A : Type} (tasks : List (Except E A)) : List Nat → Option E
  | [] => none
  | i :: rest =>
    match tasks[i]? with
    | some (.error e) => some e
    | _ => firstErrBy tasks rest

/-- Parallel collect: abort with the first failure met in completion order,
otherwise gather every value indexed by original position. -/
def parCollect {E A : Type} (tasks : List (Except E A)) (completion : List Nat) :
    Except E (List A) :=
  match firstErrBy tasks completion with
  | some e => .error e
  | none => .ok (tasks.filterMap exceptValue)

/-! ## The tree walker (`hash_path` and `hash_directory`)

`hash_path` mirrors the source: read non-following metadata, check the
symlink flag first, then the file flag (choosing the small- or large-file
strategy by size), then the directory flag; anything else fails.  The
verbose trace is returned alongside the result instead of being printed.
`hashChildren` is the per-child task list (`map(|entry| hash_path(...))`),
and `hash_directory` sorts the children, then collects the tasks through the
parallel gather when the child count exceeds the worker-pool size `cfg`
(`rayon::current_num_threads()`), sequentially otherwise. -/

mutual

def hash_path (cfg : Nat) (verbose : Bool) (path : ByteStr) (t : FSTree) :
    Except HashError (HashResult × List TraceLine) :=
  match symlink_metadata t with
  | .error e => .error e
  | .ok m =>
    if m.is_symlink then
      match hash_symlink t with
      | .error e => .error e
      | .ok h => .ok (⟨path, h⟩, if verbose then [(TraceTag.link, path, h)] else [])
    else if m.is_file then
      match (if m.len > LARGE_FILE_THRESHOLD then hash_large_file t
             else hash_small_file t) with
      | .error e => .error e
      | .ok h => .ok (⟨path, h⟩, if verbose then [(TraceTag.file, path, h)] else [])
    else if m.is_dir then
      match hash_directory cfg verbose path t with
      | .error e => .error e
      | .ok childResults =>
        match mapExcept (fun r =>
            match fileName r.1.path with
            | none => .error HashError.invalidEncoding
            | some n =>
              if validUtf8 n then .ok (n, r.1.hash)
              else .error HashError.invalidEncoding) childResults with
        | .error e => .error e
        | .ok childHashes =>
          let h := build_merkle_hash childHashes
          .ok (⟨path, h⟩, (childResults.map Prod.snd).flatten
                ++ (if verbose then [(TraceTag.dir, path, h)] else []))
    else .error HashError.unsupportedType
termination_by 2 * sizeOf t + 1

def hash_directory (cfg : Nat) (verbose : Bool) (path : ByteStr) (t : FSTree) :
    Except HashError (List (HashResult × List TraceLine)) :=
  match t with
  | .dir children =>
    let sorted := sortEntries children
    let tasks := hashChildren cfg verbose path sorted
    if sorted.length > cfg then parCollect tasks (List.range tasks.length)
    else collectExcept tasks
  | .unreadableDir => .error HashError.enumerationFailed
  | _ => .error HashError.ioError
termination_by 2 * sizeOf t
decreasing_by
  simp_wf
  rw [sizeOf_sortEntries]
  omega

def hashChildren (cfg : Nat) (verbose : Bool) (path : ByteStr) :
    List (ByteStr × FSTree) → List (Except HashError (HashResult × List TraceLine))
  | [] => []
  | (n, sub) :: rest =>
    hash_path cfg verbose (path ++ 47 :: n) sub :: hashChildren cfg verbose path rest
termination_by l => 2 * sizeOf l + 1

end

/-! ## A path-free view of the walker

`digestOf` computes only the digest of a node, with no ambient path, no
verbosity and no worker-pool size.  The characterization theorem below shows
`hash_path` projects onto it, which at once gives that the digest depends
neither on the verbose flag, nor on the path the node is reached by, nor on
the worker-pool size. -/

/-- The digest component of the walker's answer. -/
def hashValue (cfg : Nat) (verbose : Bool) (path : ByteStr) (t : FSTree) :
    Except HashError ByteStr :=
  Except.map (fun x => x.1.hash) (hash_path cfg verbose path t)

mutual

def digestOf : FSTree → Except HashError ByteStr
  | .statFail => .error HashError.metadataError
  | .symlink target =>
    if validUtf8 target then .ok (hexEncode (sha256 target))
    else .error HashError.invalidEncoding
  | .file content => .ok (hexEncode (sha256 content))
  | .other => .error HashError.unsupportedType
  | .unreadableDir => .error HashError.enumerationFailed
  | .dir children =>
    match digestChildren (sortEntries children) with
    | .error e => .error e
    | .ok pairs =>
      match mapExcept (fun pr =>
          match fileName (47 :: pr.1) with
          | none => .error HashError.invalidEncoding
          | some n =>
            if validUtf8 n then .ok (n, pr.2)
            else .error HashError.invalidEncoding) pairs with
      | .error e => .error e
      | .ok entries => .ok (build_merkle_hash entries)
termination_by t => 2 * sizeOf t + 1
decreasing_by
  simp_wf
  rw [sizeOf_sortEntries]
  omega

def digestChildren : List (ByteStr × FSTree) → Except HashError (List (ByteStr × ByteStr))
  | [] => .ok []
  | (n, sub) :: rest =>
    match digestOf sub with
    | .error e => .error e
    | .ok d =>
      match digestChildren rest with
      | .error e => .error e
      | .ok ds => .ok ((n, d) :: ds)
termination_by l => 2 * sizeOf l

end

/-! ## Facts about result collection -/

theorem exceptValue_ok {E A : Type} (a : A) :
    exceptValue (.ok a : Except E A) = some a := rfl

theorem exceptValue_error {E A : Type} (e : E) :
    exceptValue (.error e : Except E A) = none := rfl

theorem isOk_iff_exists_ok {E A : Type} (x : Except E A) :
    x.isOk = true ↔ ∃ a, x = .ok a := by
  cases x <;> simp [Except.isOk, Except.toBool]

theorem collectExcept_isOk_iff {E A : Type} (l : List (Except E A)) :
    (collectExcept l).isOk = true ↔ ∀ x ∈ l, x.isOk = true := by
  induction l with
  | nil => simp [collectExcept, Except.isOk, Except.toBool]
  | cons x xs ih =>
    cases x with
    | error e => simp [collectExcept, Except.isOk, Except.toBool]
    | ok a =>
      rw [collectExcept]
      constructor
      · intro h y hy
        rcases List.mem_cons.mp hy with rfl | hmem
        · simp [Except.isOk, Except.toBool]
        · refine (ih.mp ?_) y hmem
          cases hc : collectExcept xs with
          | error e => rw [hc] at h; simp [Except.isOk, Except.toBool] at h
          | ok rs => simp [Except.isOk, Except.toBool]
      · intro h
        have hxs : (collectExcept xs).isOk = true :=
          ih.mpr (fun y hy => h y (List.mem_cons_of_mem _ hy))
        cases hc : collectExcept xs with
        | error e => rw [hc] at hxs; simp [Except.isOk, Except.toBool] at hxs
        | ok rs => simp [Except.isOk, Except.toBool]

theorem collectExcept_all_ok {E A : Type} (l : List (Except E A))
    (h : ∀ x ∈ l, x.isOk = true) :
    collectExcept l = .ok (l.filterMap exceptValue) := by
  induction l with
  | nil => rfl
  | cons x xs ih =>
    cases x with
    | error e =>
      have := h _ (List.mem_cons_self _ xs)
      simp [Except.isOk, Except.toBool] at this
    | ok a =>
      rw [collectExcept, ih (fun y hy => h y (List.mem_cons_of_mem _ hy))]
      simp [List.filterMap_cons, exceptValue]

theorem collectExcept_error_of_mem {E A : Type} (l : List (Except E A))
    (e : E) (hx : Except.error e ∈ l) :
    ∃ e2, collectExcept l = .error e2 := by
  cases hc : collectExcept l with
  | error e2 => exact ⟨e2, rfl⟩
  | ok rs =>
    have : (collectExcept l).isOk = true := by rw [hc]; rfl
    have := (collectExcept_isOk_iff l).mp this _ hx
    simp [Except.isOk, Except.toBool] at this

theorem firstErrBy_map_succ {E A : Type} (t : Except E A) (ts : List (Except E A))
    (l : List Nat) :
    firstErrBy (t :: ts) (l.map Nat.succ) = firstErrBy ts l := by
  induction l with
  | nil => rfl
  | cons i rest ih =>
    rw [List.map_cons, firstErrBy, firstErrBy]
    simp only [List.getElem?_cons_succ]
    cases ts[i]? with
    | none => exact ih
    | some x => cases x <;> simp [ih]

/-- With the identity completion order, the parallel gather is exactly the
sequential collect, error choice included. -/
theorem parCollect_range {E A : Type} (tasks : List (Except E A)) :
    parCollect tasks (List.range tasks.length) = collectExcept tasks := by
  induction tasks with
  | nil => rfl
  | cons t ts ih =>
    rw [List.length_cons, List.range_succ_eq_map]
    cases t with
    | error e =>
      rw [parCollect, firstErrBy]
      simp [collectExcept]
    | ok a =>
      rw [parCollect, firstErrBy]
      simp only [List.getElem?_cons_zero]
      rw [firstErrBy_map_succ]
      rw [parCollect] at ih
      cases hf : firstErrBy ts (List.range ts.length) with
      | some e =>
        rw [hf] at ih
        rw [collectExcept, ← ih]
      | none =>
        rw [hf] at ih
        rw [collectExcept, ← ih]
        simp [List.filterMap_cons, exceptValue]

theorem firstErrBy_none_of_all_ok {E A : Type} (tasks : List (Except E A))
    (h : ∀ x ∈ tasks, x.isOk = true) (completion : List Nat) :
    firstErrBy tasks completion = none := by
  induction completion with
  | nil => rfl
  | cons i rest ih =>
    rw [firstErrBy]
    cases hg : tasks[i]? with
    | none => exact ih
    | some x =>
      cases x with
      | ok a => exact ih
      | error e =>
        have hmem : Except.error e ∈ tasks := by
          obtain ⟨hlt, hEq⟩ := List.getElem?_eq_some.mp hg
          exact hEq ▸ List.getElem_mem hlt
        have := h _ hmem
        simp [Except.isOk, Except.toBool] at this

theorem firstErrBy_none_not_err {E A : Type} (tasks : List (Except E A)) :
    ∀ (completion : List Nat), firstErrBy tasks completion = none →
      ∀ i ∈ completion, ∀ e, tasks[i]? ≠ some (.error e) := by
  intro completion
  induction completion with
  | nil =>
    intro _ i hi
    simp at hi
  | cons j rest ih =>
    intro hnone i hi e heq
    rw [firstErrBy] at hnone
    rcases List.mem_cons.mp hi with rfl | hmem
    · rw [heq] at hnone
      simp at hnone
    · cases hg : tasks[j]? with
      | none =>
        rw [hg] at hnone
        exact ih hnone i hmem e heq
      | some x =>
        cases x with
        | ok a =>
          rw [hg] at hnone
          exact ih hnone i hmem e heq
        | error e2 =>
          rw [hg] at hnone
          simp at hnone

/-- When no child fails, the parallel gather returns the values in original
position order, whatever the completion order was. -/
theorem parCollect_all_ok {E A : Type} (tasks : List (Except E A))
    (completion : List Nat) (h : ∀ x ∈ tasks, x.isOk = true) :
    parCollect tasks completion = .ok (tasks.filterMap exceptValue) := by
  rw [parCollect, firstErrBy_none_of_all_ok tasks h completion]

theorem parCollect_eq_collect_of_all_ok {E A : Type} (tasks : List (Except E A))
    (completion : List Nat) (h : ∀ x ∈ tasks, x.isOk = true) :
    parCollect tasks completion = collectExcept tasks := by
  rw [parCollect_all_ok tasks completion h, collectExcept_all_ok tasks h]

/-- The parallel gather succeeds exactly when the sequential collect does,
for any completion order that schedules every task. -/
theorem parCollect_isOk_iff {E A : Type} (tasks : List (Except E A))
    (completion : List Nat) (hperm : completion.Perm (List.range tasks.length)) :
    (parCollect tasks completion).isOk = true ↔ (collectExcept tasks).isOk = true := by
  constructor
  · intro h
    rw [parCollect] at h
    cases hf : firstErrBy tasks completion with
    | some e =>
      rw [hf] at h
      simp [Except.isOk, Except.toBool] at h
    | none =>
      rw [collectExcept_isOk_iff]
      intro x hx
      rcases List.mem_iff_getElem?.mp hx with ⟨i, hi⟩
      cases x with
      | ok a => rfl
      | error e =>
        have hlt : i < tasks.length := by
          by_contra hge
          rw [List.getElem?_eq_none (by omega)] at hi
          exact Option.noConfusion hi
        have hic : i ∈ completion := hperm.mem_iff.mpr (List.mem_range.mpr hlt)
        exact absurd hi (firstErrBy_none_not_err tasks completion hf i hic e)
  · intro h
    have hall := (collectExcept_isOk_iff tasks).mp h
    rw [parCollect_all_ok tasks completion hall]
    rfl

/-- Both fan-out branches of `hash_directory` compute the sequential
collect of the sorted child tasks. -/
theorem hash_directory_eq_collect (cfg : Nat) (verbose : Bool) (path : ByteStr)
    (cs : List (ByteStr × FSTree)) :
    hash_directory cfg verbose path (.dir cs)
      = collectExcept (hashChildren cfg verbose path (sortEntries cs)) := by
  rw [hash_directory]
  split
  · exact parCollect_range _
  · rfl

/-! ## Case-by-case unfolding of the walker -/

theorem hash_path_statFail (cfg : Nat) (v : Bool) (p : ByteStr) :
    hash_path cfg v p .statFail = .error HashError.metadataError := by
  simp [hash_path, symlink_metadata]

theorem hash_path_other (cfg : Nat) (v : Bool) (p : ByteStr) :
    hash_path cfg v p .other = .error HashError.unsupportedType := by
  simp [hash_path, symlink_metadata]

theorem hash_path_unreadableDir (cfg : Nat) (v : Bool) (p : ByteStr) :
    hash_path cfg v p .unreadableDir = .error HashError.enumerationFailed := by
  simp [hash_path, symlink_metadata, hash_directory]

theorem hash_path_symlink (cfg : Nat) (v : Bool) (p : ByteStr) (target : ByteStr) :
    hash_path cfg v p (.symlink target) =
      match hash_symlink (.symlink target) with
      | .error e => .error e
      | .ok hsh => .ok (⟨p, hsh⟩, if v then [(TraceTag.link, p, hsh)] else []) := by
  simp [hash_path, symlink_metadata]

theorem hash_path_file (cfg : Nat) (v : Bool) (p : ByteStr) (c : ByteStr) :
    hash_path cfg v p (.file c) =
      match (if c.length > LARGE_FILE_THRESHOLD then hash_large_file (.file c)
             else hash_small_file (.file c)) with
      | .error e => .error e
      | .ok hsh => .ok (⟨p, hsh⟩, if v then [(TraceTag.file, p, hsh)] else []) := by
  simp [hash_path, symlink_metadata]

theorem hash_path_dir (cfg : Nat) (v : Bool) (p : ByteStr)
    (cs : List (ByteStr × FSTree)) :
    hash_path cfg v p (.dir cs) =
      match hash_directory cfg v p (.dir cs) with
      | .error e => .error e
      | .ok childResults =>
        match mapExcept (fun r =>
            match fileName r.1.path with
            | none => .error HashError.invalidEncoding
            | some n =>
              if validUtf8 n then .ok (n, r.1.hash)
              else .error HashError.invalidEncoding) childResults with
        | .error e => .error e
        | .ok childHashes =>
          .ok (⟨p, build_merkle_hash childHashes⟩,
            (childResults.map Prod.snd).flatten
              ++ (if v then [(TraceTag.dir, p, build_merkle_hash childHashes)] else [])) := by
  simp [hash_path, symlink_metadata]

theorem hashChildren_nil (cfg : Nat) (v : Bool) (p : ByteStr) :
    hashChildren cfg v p [] = [] := by
  simp [hashChildren]

theorem hashChildren_cons (cfg : Nat) (v : Bool) (p : ByteStr)
    (n : ByteStr) (sub : FSTree) (rest : List (ByteStr × FSTree)) :
    hashChildren cfg v p ((n, sub) :: rest)
      = hash_path cfg v (p ++ 47 :: n) sub :: hashChildren cfg v p rest := by
  simp [hashChildren]

/-- Every successful walker answer carries the path it was invoked with. -/
theorem hash_path_ok_path (cfg : Nat) (verbose : Bool) (path : ByteStr)
    (t : FSTree) (r : HashResult × List TraceLine)
    (h : hash_path cfg verbose path t = .ok r) : r.1.path = path := by
  rw [hash_path.eq_def] at h
  repeat' split at h
  all_goals cases h
  all_goals rfl

/-! ## Facts about path components -/

theorem takeWhile_append_of_not {α} (p : α → Bool) (x : α) (hx : p x = false)
    (t r : List α) : (t ++ x :: r).takeWhile p = t.takeWhile p := by
  induction t with
  | nil => simp [List.takeWhile_cons, hx]
  | cons a t ih =>
    simp only [List.cons_append, List.takeWhile_cons]
    cases p a <;> simp [ih]

theorem takeWhile_all {α} (p : α → Bool) (l : List α) (h : ∀ x ∈ l, p x = true) :
    l.takeWhile p = l := by
  induction l with
  | nil => rfl
  | cons a t ih =>
    rw [List.takeWhile_cons, h a (List.mem_cons_self _ _),
      ih (fun x hx => h x (List.mem_cons_of_mem _ hx))]
    simp

/-- The final component of a child path depends only on the appended
name, never on the parent path. -/
theorem lastComponent_append (p n : ByteStr) :
    lastComponent (p ++ 47 :: n) = lastComponent (47 :: n) := by
  unfold lastComponent
  rw [List.reverse_append, List.reverse_cons, List.append_assoc,
    List.singleton_append,
    takeWhile_append_of_not _ 47 (by simp) n.reverse p.reverse,
    takeWhile_append_of_not _ 47 (by simp) n.reverse []]

theorem fileName_append (p n : ByteStr) :
    fileName (p ++ 47 :: n) = fileName (47 :: n) := by
  unfold fileName
  rw [lastComponent_append]

theorem lastComponent_no_sep (p n : ByteStr) (h47 : 47 ∉ n) :
    lastComponent (p ++ 47 :: n) = n := by
  rw [lastComponent_append]
  unfold lastComponent
  rw [List.reverse_cons, takeWhile_append_of_not _ 47 (by simp) n.reverse [],
    takeWhile_all _ n.reverse (by
      intro x hx
      have : x ∈ n := List.mem_reverse.mp hx
      have : x ≠ 47 := fun hEq => h47 (hEq ▸ this)
      simpa using this),
    List.reverse_reverse]

/-- For a real child name, `file_name` recovers exactly the name. -/
theorem fileName_of_validName (p n : ByteStr) (h : validName n) :
    fileName (p ++ 47 :: n) = some n := by
  obtain ⟨hne, h47, hdot, hdotdot, _⟩ := h
  unfold fileName
  rw [show lastComponent (p ++ 47 :: n) = n from by
        have := lastComponent_no_sep p n h47
        simpa [lastComponent_append] using this]
  simp [hne, hdot, hdotdot]

/-! ## Relating the walker to its path-free view -/

theorem except_map_error {E A B : Type} (f : A → B) (e : E) :
    Except.map f (.error e : Except E A) = .error e := rfl

theorem except_map_ok {E A B : Type} (f : A → B) (a : A) :
    Except.map f (.ok a : Except E A) = .ok (f a) := rfl

theorem mapExcept_congr {A B E : Type} (f g : A → Except E B) (l : List A)
    (h : ∀ x ∈ l, f x = g x) : mapExcept f l = mapExcept g l := by
  induction l with
  | nil => rfl
  | cons a rest ih =>
    rw [mapExcept, mapExcept, h a (List.mem_cons_self _ _),
      ih (fun x hx => h x (List.mem_cons_of_mem _ hx))]

theorem mapExcept_comp_map {A B C E : Type} (f : A → B) (g : B → Except E C)
    (l : List A) : mapExcept g (l.map f) = mapExcept (fun a => g (f a)) l := by
  induction l with
  | nil => rfl
  | cons a rest ih => rw [List.map_cons, mapExcept, mapExcept, ih]

/-- The per-result entry extraction of the walker's directory case, as a
function of the path and hash only. -/
def extractPH : ByteStr × ByteStr → Except HashError (ByteStr × ByteStr) :=
  fun pr =>
    match fileName pr.1 with
    | none => .error HashError.invalidEncoding
    | some n =>
      if validUtf8 n then .ok (n, pr.2) else .error HashError.invalidEncoding

theorem sizeOf_snd_lt_dir {e : ByteStr × FSTree} {cs : List (ByteStr × FSTree)}
    (he : e ∈ sortEntries cs) : sizeOf e.2 < sizeOf (FSTree.dir cs) := by
  have hmem : e ∈ cs := (perm_sortEntries cs).subset he
  have h1 := List.sizeOf_lt_of_mem hmem
  obtain ⟨n, sub⟩ := e
  simp only [Prod.mk.sizeOf_spec] at h1
  simp only [FSTree.dir.sizeOf_spec]
  omega

/-- The child stage: collecting the child tasks and projecting each result
onto its path and hash is the same as computing each child's digest and
attaching the child path. -/
theorem masterChildren (cfg : Nat) (verbose : Bool) (p : ByteStr)
    (l : List (ByteStr × FSTree))
    (ih : ∀ e ∈ l, ∀ p' : ByteStr,
        Except.map (fun x => x.1.hash) (hash_path cfg verbose p' e.2) = digestOf e.2) :
    Except.map (List.map (fun r => (r.1.path, r.1.hash)))
        (collectExcept (hashChildren cfg verbose p l))
      = Except.map (List.map (fun pr : ByteStr × ByteStr => (p ++ 47 :: pr.1, pr.2)))
          (digestChildren l) := by
  induction l with
  | nil =>
    rw [hashChildren_nil]
    rw [show digestChildren [] = .ok [] from by rw [digestChildren]]
    rfl
  | cons e rest ihl =>
    obtain ⟨n, sub⟩ := e
    rw [hashChildren_cons]
    have hhead := ih (n, sub) (List.mem_cons_self _ _) (p ++ 47 :: n)
    have ihrest := ihl (fun x hx p' => ih x (List.mem_cons_of_mem _ hx) p')
    rw [digestChildren]
    cases hh : hash_path cfg verbose (p ++ 47 :: n) sub with
    | error e2 =>
      rw [hh, except_map_error] at hhead
      rw [← hhead]
      rw [show collectExcept (Except.error e2 :: hashChildren cfg verbose p rest)
            = .error e2 from rfl]
      rfl
    | ok rr =>
      rw [hh, except_map_ok] at hhead
      have hpath : rr.1.path = p ++ 47 :: n := hash_path_ok_path _ _ _ _ _ hh
      rw [← hhead]
      cases hrest : collectExcept (hashChildren cfg verbose p rest) with
      | error e2 =>
        rw [hrest, except_map_error] at ihrest
        cases hdc : digestChildren rest with
        | error e3 =>
          rw [hdc, except_map_error] at ihrest
          cases ihrest
          rw [show collectExcept (Except.ok rr :: hashChildren cfg verbose p rest)
                = .error e2 from by rw [collectExcept, hrest]]
          rfl
        | ok zs =>
          rw [hdc, except_map_ok] at ihrest
          exact absurd ihrest (by simp)
      | ok rs =>
        rw [hrest, except_map_ok] at ihrest
        cases hdc : digestChildren rest with
        | error e3 =>
          rw [hdc, except_map_error] at ihrest
          exact absurd ihrest (by simp)
        | ok zs =>
          rw [hdc, except_map_ok] at ihrest
          injection ihrest with hlists
          rw [show collectExcept (Except.ok rr :: hashChildren cfg verbose p rest)
                = .ok (rr :: rs) from by rw [collectExcept, hrest]]
          rw [except_map_ok, except_map_ok]
          rw [List.map_cons, List.map_cons, hlists, hpath]

/-- Characterization of the walker: the digest the walker computes for a
node depends only on the node itself, not on the ambient path, the verbose
flag or the worker-pool size. -/
theorem hash_path_digest : ∀ (t : FSTree) (cfg : Nat) (verbose : Bool) (path : ByteStr),
    Except.map (fun x => x.1.hash) (hash_path cfg verbose path t) = digestOf t
  | .statFail, cfg, v, p => by
    rw [hash_path_statFail]
    rw [show digestOf .statFail = .error HashError.metadataError from by rw [digestOf]]
    rfl
  | .other, cfg, v, p => by
    rw [hash_path_other]
    rw [show digestOf .other = .error HashError.unsupportedType from by rw [digestOf]]
    rfl
  | .unreadableDir, cfg, v, p => by
    rw [hash_path_unreadableDir]
    rw [show digestOf .unreadableDir = .error HashError.enumerationFailed from by
      rw [digestOf]]
    rfl
  | .symlink tg, cfg, v, p => by
    rw [hash_path_symlink]
    by_cases hv : validUtf8 tg = true
    · rw [show hash_symlink (.symlink tg) = .ok (hexEncode (sha256 tg)) from by
        simp [hash_symlink, hv, Sha256.digestBytes]]
      simp [digestOf, hv, except_map_ok]
    · rw [show hash_symlink (.symlink tg) = .error HashError.invalidEncoding from by
        simp [hash_symlink, hv]]
      simp [digestOf, hv, except_map_error]
  | .file c, cfg, v, p => by
    rw [hash_path_file]
    by_cases hlen : c.length > LARGE_FILE_THRESHOLD
    · rw [if_pos hlen]
      rw [show hash_large_file (.file c) = .ok (hexEncode (sha256 c)) from by
        rw [hash_large_file]
        unfold Sha256.finalize
        rw [show Sha256.new = (⟨[]⟩ : Sha256) from rfl, foldl_update_data,
          chunksOf_join CHUNK_SIZE (by decide) c]
        rfl]
      simp [digestOf, except_map_ok]
    · rw [if_neg hlen]
      rw [show hash_small_file (.file c) = .ok (hexEncode (sha256 c)) from by
        rw [hash_small_file]
        rfl]
      simp [digestOf, except_map_ok]
  | .dir cs, cfg, v, p => by
    have ih : ∀ e ∈ sortEntries cs, ∀ p' : ByteStr,
        Except.map (fun x => x.1.hash) (hash_path cfg v p' e.2) = digestOf e.2 :=
      fun e he p' => hash_path_digest e.2 cfg v p'
    rw [hash_path_dir, hash_directory_eq_collect]
    have hmc := masterChildren cfg v p (sortEntries cs) ih
    rw [show digestOf (.dir cs)
          = (match digestChildren (sortEntries cs) with
            | .error e => .error e
            | .ok pairs =>
              match mapExcept (fun pr =>
                  match fileName (47 :: pr.1) with
                  | none => .error HashError.invalidEncoding
                  | some n =>
                    if validUtf8 n then .ok (n, pr.2)
                    else .error HashError.invalidEncoding) pairs with
              | .error e => .error e
              | .ok entries => .ok (build_merkle_hash entries)) from by rw [digestOf]]
    cases hcol : collectExcept (hashChildren cfg v p (sortEntries cs)) with
    | error e2 =>
      rw [hcol, except_map_error] at hmc
      cases hdc : digestChildren (sortEntries cs) with
      | error e3 =>
        rw [hdc, except_map_error] at hmc
        cases hmc
        rfl
      | ok zs =>
        rw [hdc, except_map_ok] at hmc
        exact absurd hmc (by simp)
    | ok childResults =>
      rw [hcol, except_map_ok] at hmc
      cases hdc : digestChildren (sortEntries cs) with
      | error e3 =>
        rw [hdc, except_map_error] at hmc
        exact absurd hmc (by simp)
      | ok zs =>
        rw [hdc, except_map_ok] at hmc
        injection hmc with hlists
        dsimp only
        have hext : mapExcept (fun r =>
            match fileName r.1.path with
            | none => .error HashError.invalidEncoding
            | some n =>
              if validUtf8 n then .ok (n, r.1.hash)
              else .error HashError.invalidEncoding) childResults
          = mapExcept (fun pr : ByteStr × ByteStr =>
              match fileName (47 :: pr.1) with
              | none => .error HashError.invalidEncoding
              | some n =>
                if validUtf8 n then .ok (n, pr.2)
                else .error HashError.invalidEncoding) zs := by
          have h1 : mapExcept (fun r =>
              match fileName r.1.path with
              | none => .error HashError.invalidEncoding
              | some n =>
                if validUtf8 n then .ok (n, r.1.hash)
                else .error HashError.invalidEncoding) childResults
            = mapExcept extractPH
                (childResults.map (fun r => (r.1.path, r.1.hash))) := by
            rw [mapExcept_comp_map]
            rfl
          rw [h1, hlists, mapExcept_comp_map]
          refine mapExcept_congr _ _ zs (fun pr hpr => ?_)
          show extractPH (p ++ 47 :: pr.1, pr.2) = _
          unfold extractPH
          rw [fileName_append]
        rw [hext]
        cases hfin : mapExcept (fun pr : ByteStr × ByteStr =>
            match fileName (47 :: pr.1) with
            | none => .error HashError.invalidEncoding
            | some n =>
              if validUtf8 n then .ok (n, pr.2)
              else .error HashError.invalidEncoding) zs with
        | error e4 => rfl
        | ok entries => rfl
termination_by t => sizeOf t
decreasing_by
  exact sizeOf_snd_lt_dir he

/-! ## Determinism of the sort under permutation of the enumeration order -/

/-- The strict version of the entry order available when the filenames are
distinct. -/
def entryKeyLt (a b : ByteStr × FSTree) : Prop := entryLe a b ∧ a.1 ≠ b.1

instance : IsAntisymm (ByteStr × FSTree) entryKeyLt :=
  ⟨fun a b hab hba => absurd (lexLe_antisymm a.1 b.1 hab.1 hba.1) hab.2⟩

theorem sorted_entryKeyLt (l : List (ByteStr × FSTree))
    (hnd : (l.map Prod.fst).Nodup) (hs : l.Sorted entryLe) :
    l.Sorted entryKeyLt := by
  have hne : l.Pairwise (fun a b => a.1 ≠ b.1) := List.pairwise_map.mp hnd
  exact hs.and hne

/-- Directories with distinct child names: sorting is a function of the
set of children only, whatever enumeration order the filesystem served. -/
theorem sortEntries_eq_of_perm (l1 l2 : List (ByteStr × FSTree))
    (hnd : (l1.map Prod.fst).Nodup) (hperm : l1.Perm l2) :
    sortEntries l1 = sortEntries l2 := by
  have hnd1 : ((sortEntries l1).map Prod.fst).Nodup :=
    (((perm_sortEntries l1).map Prod.fst).nodup_iff).mpr hnd
  have hnd2 : ((sortEntries l2).map Prod.fst).Nodup :=
    (((perm_sortEntries l2).map Prod.fst).nodup_iff).mpr
      (((hperm.map Prod.fst).nodup_iff).mp hnd)
  exact List.eq_of_perm_of_sorted
    ((perm_sortEntries l1).trans (hperm.trans (perm_sortEntries l2).symm))
    (sorted_entryKeyLt _ hnd1 (List.sorted_insertionSort entryLe l1))
    (sorted_entryKeyLt _ hnd2 (List.sorted_insertionSort entryLe l2))

/-! ## Injectivity properties of the combiner's serialization -/

/-- Splitting at a separator absent from the suffixes is unambiguous. -/
theorem append_sep_inj (sep : Nat) : ∀ (u1 u2 v1 v2 : ByteStr), sep ∉ v1 → sep ∉ v2 →
    u1 ++ sep :: v1 = u2 ++ sep :: v2 → u1 = u2 ∧ v1 = v2
  | [], [], v1, v2, _, _, heq => by
    simp only [List.nil_append] at heq
    exact ⟨rfl, (List.cons.injEq _ _ _ _ ▸ heq).2⟩
  | [], c :: u2', v1, v2, hv1, _, heq => by
    simp only [List.nil_append, List.cons_append, List.cons.injEq] at heq
    exact absurd (heq.2 ▸ List.mem_append_right u2' (List.mem_cons_self _ _))
      (heq.1 ▸ hv1)
  | a :: u1', [], v1, v2, _, hv2, heq => by
    simp only [List.nil_append, List.cons_append, List.cons.injEq] at heq
    exact absurd (heq.2.symm ▸ List.mem_append_right u1' (List.mem_cons_self _ _))
      (heq.1 ▸ hv2)
  | a :: u1', b :: u2', v1, v2, hv1, hv2, heq => by
    simp only [List.cons_append, List.cons.injEq] at heq
    obtain ⟨h1, h2⟩ := append_sep_inj sep u1' u2' v1 v2 hv1 hv2 heq.2
    exact ⟨by rw [heq.1, h1], h2⟩

/-- Serialized lines with space-free digests decompose uniquely. -/
theorem serEntry_inj (n1 h1 n2 h2 : ByteStr) (hs1 : 32 ∉ h1) (hs2 : 32 ∉ h2)
    (heq : serEntry (n1, h1) = serEntry (n2, h2)) : n1 = n2 ∧ h1 = h2 := by
  unfold serEntry at heq
  have h10 : (32 : Nat) ∉ h1 ++ [10] := by
    intro hmem
    rcases List.mem_append.mp hmem with hmem | hmem
    · exact hs1 hmem
    · simp at hmem
  have h20 : (32 : Nat) ∉ h2 ++ [10] := by
    intro hmem
    rcases List.mem_append.mp hmem with hmem | hmem
    · exact hs2 hmem
    · simp at hmem
  obtain ⟨hn, hh⟩ := append_sep_inj 32 n1 n2 (h1 ++ [10]) (h2 ++ [10]) h10 h20 heq
  exact ⟨hn, List.append_cancel_right hh⟩

/-- An entry whose filename has no newline and whose digest string has
neither newline nor space: true of every real entry, whose digest is
lowercase hex. -/
def entryClean (e : ByteStr × ByteStr) : Prop := 10 ∉ e.1 ∧ 10 ∉ e.2 ∧ 32 ∉ e.2

instance (e : ByteStr × ByteStr) : Decidable (entryClean e) := by
  unfold entryClean; infer_instance

theorem serEntry_clean_line (e : ByteStr × ByteStr) (he : 10 ∉ e.1 ∧ 10 ∉ e.2) :
    ∃ t, serEntry e = t ++ [10] ∧ 10 ∉ t := by
  refine ⟨e.1 ++ 32 :: e.2, ?_, ?_⟩
  · simp [serEntry]
  · intro hmem
    rcases List.mem_append.mp hmem with hmem | hmem
    · exact he.1 hmem
    · rcases List.mem_cons.mp hmem with h32 | hmem
      · exact absurd h32 (by norm_num)
      · exact he.2 hmem

/-- Newline-terminated newline-free lines concatenate injectively. -/
theorem flatten_lines_inj : ∀ (m1 m2 : List ByteStr),
    (∀ s ∈ m1, ∃ t, s = t ++ [10] ∧ 10 ∉ t) →
    (∀ s ∈ m2, ∃ t, s = t ++ [10] ∧ 10 ∉ t) →
    m1.flatten = m2.flatten → m1 = m2 := by
  intro m1
  induction m1 with
  | nil =>
    intro m2 _ h2 heq
    cases m2 with
    | nil => rfl
    | cons b m2' =>
      obtain ⟨tb, rfl, _⟩ := h2 b (List.mem_cons_self _ _)
      simp at heq
  | cons a m1' ih =>
    intro m2 h1 h2 heq
    cases m2 with
    | nil =>
      obtain ⟨ta, rfl, _⟩ := h1 a (List.mem_cons_self _ _)
      simp at heq
    | cons b m2' =>
      obtain ⟨ta, rfl, hta⟩ := h1 a (List.mem_cons_self _ _)
      obtain ⟨tb, rfl, htb⟩ := h2 b (List.mem_cons_self _ _)
      rw [List.flatten_cons, List.flatten_cons, List.append_assoc,
        List.append_assoc, List.singleton_append, List.singleton_append] at heq
      have hta' : ∀ x ∈ ta, (x != 10) = true := by
        intro x hx
        have hne : x ≠ 10 := fun hEq => hta (hEq ▸ hx)
        simpa using hne
      have htb' : ∀ x ∈ tb, (x != 10) = true := by
        intro x hx
        have hne : x ≠ 10 := fun hEq => htb (hEq ▸ hx)
        simpa using hne
      have hts : ta = tb := by
        have e1 := congrArg (List.takeWhile (fun x => x != 10)) heq
        rw [takeWhile_append_of_not _ 10 (by simp) ta _,
          takeWhile_append_of_not _ 10 (by simp) tb _,
          takeWhile_all _ ta hta', takeWhile_all _ tb htb'] at e1
        exact e1
      subst hts
      have htl : m1'.flatten = m2'.flatten := by
        have := List.append_cancel_left heq
        exact (List.cons.injEq _ _ _ _ ▸ this).2
      rw [ih m2' (fun s hs => h1 s (List.mem_cons_of_mem _ hs))
        (fun s hs => h2 s (List.mem_cons_of_mem _ hs)) htl]

/-- Swapping two distinct clean entries changes the serialized combiner
input. -/
theorem merkleInput_swap_ne (A B C : List (ByteStr × ByteStr))
    (x y : ByteStr × ByteStr) (hxy : x ≠ y)
    (hclean : ∀ e ∈ A ++ x :: (B ++ y :: C), entryClean e) :
    merkleInput (A ++ x :: (B ++ y :: C)) ≠ merkleInput (A ++ y :: (B ++ x :: C)) := by
  intro heq
  rw [merkleInput_eq, merkleInput_eq] at heq
  have hmem2 : ∀ e ∈ A ++ y :: (B ++ x :: C), entryClean e := by
    intro e he
    apply hclean
    simp only [List.mem_append, List.mem_cons] at he ⊢
    tauto
  have hlines := flatten_lines_inj _ _
    (by
      intro s hs
      rw [List.mem_map] at hs
      obtain ⟨e, he, rfl⟩ := hs
      exact serEntry_clean_line e ⟨(hclean e he).1, (hclean e he).2.1⟩)
    (by
      intro s hs
      rw [List.mem_map] at hs
      obtain ⟨e, he, rfl⟩ := hs
      exact serEntry_clean_line e ⟨(hmem2 e he).1, (hmem2 e he).2.1⟩)
    heq
  rw [List.map_append, List.map_append, List.map_cons, List.map_cons] at hlines
  have hheads := (List.cons.injEq _ _ _ _ ▸ List.append_cancel_left hlines).1
  have hx : entryClean x := hclean x (List.mem_append_right A (List.mem_cons_self _ _))
  have hy : entryClean y := hclean y (by simp)
  obtain ⟨n1, h1⟩ := x
  obtain ⟨n2, h2⟩ := y
  obtain ⟨hn, hh⟩ := serEntry_inj n1 h1 n2 h2 hx.2.2 hy.2.2 hheads
  exact hxy (by rw [hn, hh])

/-- Changing one entry's filename changes the serialized combiner input. -/
theorem merkleInput_name_ne (A B : List (ByteStr × ByteStr)) (n n' h : ByteStr)
    (hne : n ≠ n') :
    merkleInput (A ++ (n, h) :: B) ≠ merkleInput (A ++ (n', h) :: B) := by
  intro heq
  rw [merkleInput_eq, merkleInput_eq, List.map_append, List.map_append,
    List.map_cons, List.map_cons, List.flatten_append, List.flatten_append,
    List.flatten_cons, List.flatten_cons] at heq
  have h2 := List.append_cancel_left heq
  unfold serEntry at h2
  simp only [List.append_assoc, List.cons_append, List.singleton_append] at h2
  exact hne (List.append_cancel_right h2)

/-- Changing one entry's digest string changes the serialized combiner
input. -/
theorem merkleInput_hash_ne (A B : List (ByteStr × ByteStr)) (n h h' : ByteStr)
    (hne : h ≠ h') :
    merkleInput (A ++ (n, h) :: B) ≠ merkleInput (A ++ (n, h') :: B) := by
  intro heq
  rw [merkleInput_eq, merkleInput_eq, List.map_append, List.map_append,
    List.map_cons, List.map_cons, List.flatten_append, List.flatten_append,
    List.flatten_cons, List.flatten_cons] at heq
  have h2 := List.append_cancel_left heq
  unfold serEntry at h2
  simp only [List.append_assoc, List.cons_append, List.singleton_append] at h2
  have h3 := List.append_cancel_left h2
  injection h3 with h31 h4
  exact hne (List.append_cancel_right h4)

/-! ## Further facts about the child digest stage -/

theorem digestChildren_eq_mapExcept : ∀ l : List (ByteStr × FSTree),
    digestChildren l
      = mapExcept (fun e => Except.map (fun d => (e.1, d)) (digestOf e.2)) l := by
  intro l
  induction l with
  | nil => rw [digestChildren]; rfl
  | cons e rest ih =>
    obtain ⟨n, sub⟩ := e
    rw [digestChildren, mapExcept]
    cases hd : digestOf sub with
    | error e2 => rfl
    | ok d =>
      dsimp only [except_map_ok]
      rw [ih]
      cases mapExcept (fun e => Except.map (fun d => (e.1, d)) (digestOf e.2)) rest <;>
        rfl

theorem mapExcept_ok_id {A E : Type} (f : A → Except E A) : ∀ (l : List A),
    (∀ x ∈ l, f x = .ok x) → mapExcept f l = .ok l := by
  intro l
  induction l with
  | nil => intro _; rfl
  | cons a rest ih =>
    intro h
    rw [mapExcept, h a (List.mem_cons_self _ _),
      ih (fun x hx => h x (List.mem_cons_of_mem _ hx))]

theorem digestChildren_error_of_mem : ∀ (l : List (ByteStr × FSTree))
    (x : ByteStr × FSTree), x ∈ l → ∀ e, digestOf x.2 = .error e →
    ∃ e2, digestChildren l = .error e2 := by
  intro l
  induction l with
  | nil =>
    intro x hx
    simp at hx
  | cons hd rest ih =>
    intro x hx e hxe
    obtain ⟨m, s⟩ := hd
    rw [digestChildren]
    rcases List.mem_cons.mp hx with rfl | hmem
    · rw [show digestOf s = .error e from hxe]
      exact ⟨e, rfl⟩
    · cases hd2 : digestOf s with
      | error e2 => exact ⟨e2, rfl⟩
      | ok d =>
        obtain ⟨e2, h2⟩ := ih x hmem e hxe
        rw [h2]
        exact ⟨e2, rfl⟩

theorem digestChildren_ok_names : ∀ (l : List (ByteStr × FSTree))
    (pairs : List (ByteStr × ByteStr)), digestChildren l = .ok pairs →
    pairs.map Prod.fst = l.map Prod.fst := by
  intro l
  induction l with
  | nil =>
    intro pairs h
    rw [digestChildren] at h
    cases h
    rfl
  | cons hd rest ih =>
    intro pairs h
    obtain ⟨m, s⟩ := hd
    rw [digestChildren] at h
    cases hd2 : digestOf s with
    | error e =>
      rw [hd2] at h
      cases h
    | ok d =>
      rw [hd2] at h
      cases hr : digestChildren rest with
      | error e =>
        rw [hr] at h
        cases h
      | ok ds =>
        rw [hr] at h
        cases h
        simp [ih ds hr]

/-- Permutation invariance of the directory walk for distinct child
names: everything downstream of the sort is a function of the sorted
list. -/
theorem hash_path_dir_perm (cfg : Nat) (v : Bool) (p : ByteStr)
    (l1 l2 : List (ByteStr × FSTree)) (hnd : (l1.map Prod.fst).Nodup)
    (hperm : l1.Perm l2) :
    hash_path cfg v p (.dir l1) = hash_path cfg v p (.dir l2) := by
  rw [hash_path_dir, hash_path_dir, hash_directory_eq_collect,
    hash_directory_eq_collect, sortEntries_eq_of_perm l1 l2 hnd hperm]

/-- The walker's answer, traces stripped, is the same for any two settings
of the verbose flag. -/
theorem hash_path_verbose_indep (cfg : Nat) (p : ByteStr) (t : FSTree)
    (v1 v2 : Bool) :
    Except.map Prod.fst (hash_path cfg v1 p t)
      = Except.map Prod.fst (hash_path cfg v2 p t) := by
  have h1 := hash_path_digest t cfg v1 p
  have h2 := hash_path_digest t cfg v2 p
  rw [← h2] at h1
  cases ha : hash_path cfg v1 p t with
  | error e1 =>
    cases hb : hash_path cfg v2 p t with
    | error e2 =>
      rw [ha, hb, except_map_error, except_map_error] at h1
      cases h1
      rfl
    | ok r2 =>
      rw [ha, hb, except_map_error, except_map_ok] at h1
      exact absurd h1 (by simp)
  | ok r1 =>
    cases hb : hash_path cfg v2 p t with
    | error e2 =>
      rw [ha, hb, except_map_ok, except_map_error] at h1
      exact absurd h1 (by simp)
    | ok r2 =>
      rw [ha, hb, except_map_ok, except_map_ok] at h1
      injection h1 with hhash
      have hp1 := hash_path_ok_path _ _ _ _ _ ha
      have hp2 := hash_path_ok_path _ _ _ _ _ hb
      rw [except_map_ok, except_map_ok]
      obtain ⟨res1, tr1⟩ := r1
      obtain ⟨res2, tr2⟩ := r2
      obtain ⟨pp1, hh1⟩ := res1
      obtain ⟨pp2, hh2⟩ := res2
      simp only at hp1 hp2 hhash
      simp [hp1, hp2, hhash]

/-! ## The claims -/

/-- C1: for every ordered list of (filename, digest-string) entries, the
Merkle Combiner's output is the SHA-256 digest of the concatenation, in list
order, of filename bytes, one ASCII space, the digest string and one
newline — rendered as lowercase hex: 64 bytes, each a lowercase-hex ASCII
character. -/
theorem C1_merkle_combiner_format (entries : List (ByteStr × ByteStr)) :
    build_merkle_hash entries
        = hexEncode (sha256
            ((entries.map (fun e => e.1 ++ 32 :: (e.2 ++ [10]))).flatten))
      ∧ (build_merkle_hash entries).length = 64
      ∧ ∀ c ∈ build_merkle_hash entries, isLowerHexByte c := by
  refine ⟨?_, ?_, ?_⟩
  · rw [build_merkle_hash_eq_input, merkleInput_eq]
    rfl
  · rw [build_merkle_hash_eq_input, hexEncode_length, sha256_length]
  · rw [build_merkle_hash_eq_input]
    exact hexEncode_lowerHex _ (sha256_lt _)

/-- C2: chunk boundaries are semantically invisible.  Folding any chunk
sequence through the incremental hasher and finalizing digests exactly the
concatenated bytes, and the large-file strategy (64 KiB chunks over the
mapped content) returns the same answer as the whole-buffer small-file
strategy on the same bytes. -/
theorem C2_chunking_invisible (s : ByteStr) (cs : List ByteStr) :
    ((cs.foldl (fun h c => h.update c) Sha256.new).finalize = sha256 cs.flatten)
      ∧ hash_large_file (.file s) = hash_small_file (.file s) := by
  constructor
  · unfold Sha256.finalize
    rw [show Sha256.new = (⟨[]⟩ : Sha256) from rfl, foldl_update_data]
    rfl
  · rw [hash_large_file, hash_small_file]
    unfold Sha256.finalize Sha256.digestBytes
    rw [show Sha256.new = (⟨[]⟩ : Sha256) from rfl, foldl_update_data,
      chunksOf_join CHUNK_SIZE (by decide) s]
    rfl

/-- C3 counterexample: the claim that swapping two distinct combiner entries
always changes the combined digest is false.  With a newline embedded in a
digest string, the entries `("a", "b")` and `("a", "b\na b")` serialize to a
byte string `s` and to `s ++ s`, so both orders feed `s ++ s ++ s` to
SHA-256 and the digests coincide although the entries are distinct. -/
theorem C3_counterexample :
    build_merkle_hash [([97], [98]), ([97], [98, 10, 97, 32, 98])]
        = build_merkle_hash [([97], [98, 10, 97, 32, 98]), ([97], [98])]
      ∧ (([97], [98]) : ByteStr × ByteStr) ≠ ([97], [98, 10, 97, 32, 98]) := by
  constructor
  · rw [build_merkle_hash_eq_input, build_merkle_hash_eq_input,
      show merkleInput [([97], [98]), ([97], [98, 10, 97, 32, 98])]
          = merkleInput [([97], [98, 10, 97, 32, 98]), ([97], [98])] from by decide]
  · decide

/-- C3 amended: children are sorted by raw filename byte order before any
hashing, so for distinct child names the walker's answer on a directory is
invariant under every permutation of the enumeration order; swapping two
distinct entries whose filenames and digest strings contain no newline and
whose digest strings contain no space (as the lowercase-hex digests the tool
produces do) changes the byte string the combiner feeds to SHA-256; and
changing any single entry's filename, or any single entry's digest string,
always changes that byte string. -/
theorem C3_sorted_order_and_sensitivity :
    (∀ (cfg : Nat) (v : Bool) (p : ByteStr) (l1 l2 : List (ByteStr × FSTree)),
      (l1.map Prod.fst).Nodup → l1.Perm l2 →
      hash_path cfg v p (.dir l1) = hash_path cfg v p (.dir l2))
    ∧ (∀ (A B C : List (ByteStr × ByteStr)) (x y : ByteStr × ByteStr),
      x ≠ y → (∀ e ∈ A ++ x :: (B ++ y :: C), entryClean e) →
      merkleInput (A ++ x :: (B ++ y :: C)) ≠ merkleInput (A ++ y :: (B ++ x :: C)))
    ∧ (∀ (A B : List (ByteStr × ByteStr)) (n n' h : ByteStr), n ≠ n' →
      merkleInput (A ++ (n, h) :: B) ≠ merkleInput (A ++ (n', h) :: B))
    ∧ (∀ (A B : List (ByteStr × ByteStr)) (n h h' : ByteStr), h ≠ h' →
      merkleInput (A ++ (n, h) :: B) ≠ merkleInput (A ++ (n, h') :: B)) :=
  ⟨fun cfg v p l1 l2 hnd hperm => hash_path_dir_perm cfg v p l1 l2 hnd hperm,
   fun A B C x y hxy hclean => merkleInput_swap_ne A B C x y hxy hclean,
   fun A B n n' h hne => merkleInput_name_ne A B n n' h hne,
   fun A B n h h' hne => merkleInput_hash_ne A B n h h' hne⟩

/-- Witness for the amended C3, at concrete inputs. -/
theorem C3_amended_witness :
    hash_path 0 false [] (.dir [([97], .file [1]), ([98], .file [2])])
        = hash_path 0 false [] (.dir [([98], .file [2]), ([97], .file [1])])
    ∧ merkleInput [([97], [98]), ([99], [100])]
        ≠ merkleInput [([99], [100]), ([97], [98])]
    ∧ merkleInput [([97], [98])] ≠ merkleInput [([99], [98])]
    ∧ merkleInput [([97], [98])] ≠ merkleInput [([97], [100])] := by
  refine ⟨?_, ?_, ?_, ?_⟩
  · exact C3_sorted_order_and_sensitivity.1 0 false [] _ _ (by decide)
      (List.Perm.swap _ _ _)
  · exact C3_sorted_order_and_sensitivity.2.1 [] [] [] ([97], [98]) ([99], [100])
      (by decide) (by decide)
  · exact C3_sorted_order_and_sensitivity.2.2.1 [] [] [97] [99] [98] (by decide)
  · exact C3_sorted_order_and_sensitivity.2.2.2 [] [] [97] [98] [100] (by decide)

theorem digestOf_dir_unfold (cs : List (ByteStr × FSTree)) :
    digestOf (.dir cs)
      = (match digestChildren (sortEntries cs) with
        | .error e => .error e
        | .ok pairs =>
          match mapExcept (fun pr =>
              match fileName (47 :: pr.1) with
              | none => .error HashError.invalidEncoding
              | some n =>
                if validUtf8 n then .ok (n, pr.2)
                else .error HashError.invalidEncoding) pairs with
          | .error e => .error e
          | .ok entries => .ok (build_merkle_hash entries)) := by
  rw [digestOf]

theorem except_map_eq_error {E A B : Type} (f : A → B) (x : Except E A) (e : E)
    (h : Except.map f x = .error e) : x = .error e := by
  cases x with
  | error e2 =>
    rw [except_map_error] at h
    cases h
    rfl
  | ok a =>
    rw [except_map_ok] at h
    exact absurd h (by simp)

/-- C4: on a directory the walker returns the Merkle combination of the
sorted (filename, digest) pairs of the immediate children, where every
child's digest is what `hash_path` computes on that child in isolation
(here: invoked on the bare child name as its path); in particular a
subdirectory contributes exactly its independently computed digest. -/
theorem C4_dir_combines_independent_children (cfg : Nat) (v : Bool) (p : ByteStr)
    (cs : List (ByteStr × FSTree)) (hvalid : ∀ e ∈ cs, validName e.1) :
    hashValue cfg v p (.dir cs)
      = Except.map build_merkle_hash
          (mapExcept (fun e => Except.map (fun d => (e.1, d)) (hashValue cfg v e.1 e.2))
            (sortEntries cs)) := by
  unfold hashValue
  rw [hash_path_digest]
  have hinner : mapExcept (fun e => Except.map (fun d => (e.1, d))
        (Except.map (fun x => x.1.hash) (hash_path cfg v e.1 e.2))) (sortEntries cs)
      = digestChildren (sortEntries cs) := by
    rw [digestChildren_eq_mapExcept]
    exact mapExcept_congr _ _ _ (fun e he => by rw [hash_path_digest])
  rw [hinner, digestOf_dir_unfold]
  cases hdc : digestChildren (sortEntries cs) with
  | error e => rfl
  | ok pairs =>
    dsimp only
    have hnames := digestChildren_ok_names _ _ hdc
    have hid : mapExcept (fun pr : ByteStr × ByteStr =>
        match fileName (47 :: pr.1) with
        | none => .error HashError.invalidEncoding
        | some n =>
          if validUtf8 n then .ok (n, pr.2)
          else .error HashError.invalidEncoding) pairs = .ok pairs := by
      apply mapExcept_ok_id
      intro pr hpr
      have hname : pr.1 ∈ (sortEntries cs).map Prod.fst := by
        rw [← hnames]
        exact List.mem_map_of_mem Prod.fst hpr
      obtain ⟨e, he, hfst⟩ := List.mem_map.mp hname
      have hv : validName pr.1 := hfst ▸ hvalid e ((perm_sortEntries cs).subset he)
      have hf := fileName_of_validName [] pr.1 hv
      simp only [List.nil_append] at hf
      simp only [hf]
      obtain ⟨h1, h2, h3, h4, hutf⟩ := hv
      rw [if_pos hutf]
    rw [hid]
    rfl

/-- Witness for C4 at a concrete one-child directory. -/
theorem C4_witness :
    hashValue 0 false [] (.dir [([97], FSTree.file [1])])
      = Except.map build_merkle_hash
          (mapExcept (fun e => Except.map (fun d => (e.1, d)) (hashValue 0 false e.1 e.2))
            (sortEntries [([97], FSTree.file [1])])) :=
  C4_dir_combines_independent_children 0 false [] _ (by decide)

/-- C5: children are dispatched to the parallel gather exactly when their
count exceeds the worker-pool size and sequentially otherwise; for any
completion order that schedules every task, the parallel gather agrees with
the sequential collect on success (results indexed by original sorted
position, not completion order) and succeeds exactly when it does; and the
walker's digest never depends on the worker-pool size. -/
theorem C5_fanout_policy :
    (∀ (cfg : Nat) (v : Bool) (p : ByteStr) (cs : List (ByteStr × FSTree)),
      (cs.length > cfg →
        hash_directory cfg v p (.dir cs)
          = parCollect (hashChildren cfg v p (sortEntries cs))
              (List.range (hashChildren cfg v p (sortEntries cs)).length))
      ∧ (cs.length ≤ cfg →
        hash_directory cfg v p (.dir cs)
          = collectExcept (hashChildren cfg v p (sortEntries cs))))
    ∧ (∀ (E A : Type) (tasks : List (Except E A)) (completion : List Nat),
      completion.Perm (List.range tasks.length) →
      ((∀ x ∈ tasks, x.isOk = true) → parCollect tasks completion = collectExcept tasks)
      ∧ ((parCollect tasks completion).isOk = true ↔ (collectExcept tasks).isOk = true))
    ∧ (∀ (cfg1 cfg2 : Nat) (v : Bool) (p : ByteStr) (t : FSTree),
      hashValue cfg1 v p t = hashValue cfg2 v p t) := by
  refine ⟨?_, ?_, ?_⟩
  · intro cfg v p cs
    constructor
    · intro hgt
      rw [hash_directory]
      rw [if_pos (by rw [sortEntries, List.length_insertionSort]; exact hgt)]
    · intro hle
      rw [hash_directory]
      rw [if_neg (by rw [sortEntries, List.length_insertionSort]; omega)]
  · intro E A tasks completion hperm
    exact ⟨fun hok => parCollect_eq_collect_of_all_ok tasks completion hok,
      parCollect_isOk_iff tasks completion hperm⟩
  · intro cfg1 cfg2 v p t
    unfold hashValue
    rw [hash_path_digest, hash_path_digest]

/-- Witness for C5 at concrete inputs: a one-child directory below and above
the pool size, a two-task gather completing out of order, and pool-size
independence on a file. -/
theorem C5_witness :
    hash_directory 0 false [] (.dir [([97], FSTree.file [])])
        = parCollect (hashChildren 0 false [] (sortEntries [([97], FSTree.file [])]))
            (List.range (hashChildren 0 false [] (sortEntries [([97], FSTree.file [])])).length)
    ∧ hash_directory 1 false [] (.dir [([97], FSTree.file [])])
        = collectExcept (hashChildren 1 false [] (sortEntries [([97], FSTree.file [])]))
    ∧ parCollect [Except.ok 1, Except.ok 2] [1, 0]
        = collectExcept ([Except.ok 1, Except.ok 2] : List (Except Nat Nat))
    ∧ hashValue 0 false [] (.file [1]) = hashValue 5 false [] (.file [1]) := by
  refine ⟨?_, ?_, ?_, ?_⟩
  · exact (C5_fanout_policy.1 0 false [] _).1 (by decide)
  · exact (C5_fanout_policy.1 1 false [] _).2 (by decide)
  · exact (C5_fanout_policy.2.1 Nat Nat [Except.ok 1, Except.ok 2] [1, 0]
      (by decide)).1 (by decide)
  · exact C5_fanout_policy.2.2 0 5 false [] (.file [1])

/-- C6: a regular file of at most `LARGE_FILE_THRESHOLD` = 1048576 bytes is
digested by the whole-buffer small-file strategy (an empty file included,
hashing zero bytes); a strictly larger file takes the chunked
memory-mapped strategy. -/
theorem C6_size_dispatch (cfg : Nat) (v : Bool) (p : ByteStr) (c : ByteStr) :
    (c.length ≤ LARGE_FILE_THRESHOLD →
      hashValue cfg v p (.file c) = hash_small_file (.file c)
        ∧ hash_small_file (.file c) = .ok (hexEncode (sha256 c)))
    ∧ (c.length > LARGE_FILE_THRESHOLD →
      hashValue cfg v p (.file c) = hash_large_file (.file c))
    ∧ hashValue cfg v p (.file []) = .ok (hexEncode (sha256 [])) := by
  refine ⟨?_, ?_, ?_⟩
  · intro hle
    have hnot : ¬ c.length > LARGE_FILE_THRESHOLD := by omega
    constructor
    · unfold hashValue
      rw [hash_path_file, if_neg hnot,
        show hash_small_file (.file c) = .ok (hexEncode (sha256 c)) from by
          rw [hash_small_file]; rfl]
      rfl
    · rw [hash_small_file]
      rfl
  · intro hgt
    unfold hashValue
    rw [hash_path_file, if_pos hgt,
      show hash_large_file (.file c)
          = .ok (hexEncode (((chunksOf CHUNK_SIZE c).foldl
              (fun h chunk => h.update chunk) Sha256.new).finalize)) from by
        rw [hash_large_file]]
    rfl
  · unfold hashValue
    rw [hash_path_file]
    rw [if_neg (by rw [show LARGE_FILE_THRESHOLD = 1048576 from rfl]; simp)]
    rw [show hash_small_file (.file []) = .ok (hexEncode (sha256 [])) from by
      rw [hash_small_file]; rfl]
    rfl

/-- Witness for C6: a 2-byte file takes the small path; a 1048577-byte file
takes the chunked path. -/
theorem C6_witness :
    hashValue 0 false [] (.file [104, 105]) = hash_small_file (.file [104, 105])
    ∧ hashValue 0 false [] (.file (List.replicate 1048577 0))
        = hash_large_file (.file (List.replicate 1048577 0)) := by
  constructor
  · exact ((C6_size_dispatch 0 false [] [104, 105]).1 (by decide)).1
  · exact (C6_size_dispatch 0 false [] (List.replicate 1048577 0)).2.1 (by
      rw [List.length_replicate, show LARGE_FILE_THRESHOLD = 1048576 from rfl]
      omega)

/-- C7: a symlink is hashed by the plain content digest of the raw bytes of
its unresolved target string, with no kind prefix or framing — identical to
a regular file whose content is those bytes — and fails with the
invalid-encoding error when the target is not valid UTF-8, with no
byte-level fallback. -/
theorem C7_symlink_raw_target (cfg : Nat) (v : Bool) (p : ByteStr)
    (target : ByteStr) :
    (validUtf8 target = true →
      hashValue cfg v p (.symlink target) = .ok (hexEncode (sha256 target))
        ∧ hashValue cfg v p (.symlink target) = hashValue cfg v p (.file target))
    ∧ (validUtf8 target = false →
      hash_path cfg v p (.symlink target) = .error HashError.invalidEncoding) := by
  constructor
  · intro hv
    have h1 : hashValue cfg v p (.symlink target) = .ok (hexEncode (sha256 target)) := by
      unfold hashValue
      rw [hash_path_digest,
        show digestOf (.symlink target)
            = (if validUtf8 target then .ok (hexEncode (sha256 target))
               else .error HashError.invalidEncoding) from by rw [digestOf],
        if_pos hv]
    refine ⟨h1, ?_⟩
    rw [h1]
    unfold hashValue
    rw [hash_path_digest,
      show digestOf (.file target) = .ok (hexEncode (sha256 target)) from by
        rw [digestOf]]
  · intro hv
    rw [hash_path_symlink,
      show hash_symlink (.symlink target) = .error HashError.invalidEncoding from by
        rw [hash_symlink, if_neg (by rw [hv]; simp)]]

/-- Witness for C7: a valid-UTF-8 target digests like the same file content;
an invalid byte fails with the invalid-encoding error. -/
theorem C7_witness :
    hashValue 0 false [] (.symlink [120, 121]) = hashValue 0 false [] (.file [120, 121])
    ∧ hash_path 0 false [] (.symlink [255]) = .error HashError.invalidEncoding := by
  constructor
  · exact ((C7_symlink_raw_target 0 false [] [120, 121]).1 (by decide)).2
  · exact (C7_symlink_raw_target 0 false [] [255]).2 (by decide)

/-- C8: classification uses non-following metadata, failing on unreadable
metadata, on nodes that are neither file, directory nor symlink, and on
unreadable directories; a symlink dispatches to the link hasher (its target
is never resolved, the node carries only the target string); and any child
failure inside a directory is propagated — the directory yields no result.
-/
theorem C8_classification_and_error_propagation (cfg : Nat) (v : Bool) (p : ByteStr) :
    hash_path cfg v p .statFail = .error HashError.metadataError
    ∧ hash_path cfg v p .other = .error HashError.unsupportedType
    ∧ hash_path cfg v p .unreadableDir = .error HashError.enumerationFailed
    ∧ (∀ target : ByteStr,
        symlink_metadata (.symlink target) = .ok ⟨true, false, false, 0⟩
        ∧ hash_path cfg v p (.symlink target)
          = match hash_symlink (.symlink target) with
            | .error e => .error e
            | .ok hsh => .ok (⟨p, hsh⟩, if v then [(TraceTag.link, p, hsh)] else []))
    ∧ (∀ (cs : List (ByteStr × FSTree)) (n : ByteStr) (sub : FSTree) (e : HashError),
        (n, sub) ∈ cs → hash_path cfg v (p ++ 47 :: n) sub = .error e →
        ∃ e2, hash_path cfg v p (.dir cs) = .error e2) := by
  refine ⟨hash_path_statFail cfg v p, hash_path_other cfg v p,
    hash_path_unreadableDir cfg v p, ?_, ?_⟩
  · intro target
    exact ⟨rfl, hash_path_symlink cfg v p target⟩
  · intro cs n sub e hmem herr
    have hdig : digestOf sub = .error e := by
      rw [← hash_path_digest sub cfg v (p ++ 47 :: n), herr]
      rfl
    have hmem2 : (n, sub) ∈ sortEntries cs := (perm_sortEntries cs).mem_iff.mpr hmem
    obtain ⟨e2, hdc⟩ := digestChildren_error_of_mem (sortEntries cs) (n, sub) hmem2 e hdig
    have hdir : digestOf (.dir cs) = .error e2 := by
      rw [digestOf_dir_unfold, hdc]
    have hval := hash_path_digest (.dir cs) cfg v p
    rw [hdir] at hval
    exact ⟨e2, except_map_eq_error _ _ _ hval⟩

/-- Witness for C8: unreadable metadata fails, and a directory holding an
unsupported node yields no result. -/
theorem C8_witness :
    hash_path 0 false [] FSTree.statFail = .error HashError.metadataError
    ∧ ∃ e2, hash_path 0 false [] (.dir [([97], FSTree.other)]) = .error e2 := by
  constructor
  · exact (C8_classification_and_error_propagation 0 false []).1
  · exact (C8_classification_and_error_propagation 0 false []).2.2.2.2
      [([97], FSTree.other)] [97] FSTree.other HashError.unsupportedType
      (List.mem_singleton.mpr rfl)
      ((C8_classification_and_error_propagation 0 false ([] ++ 47 :: [97])).2.1)

/-- C9: two-run noninterference in the verbose flag.  The HashResult the
walker returns (path and digest, errors included) is identical with the
trace enabled and disabled; only the trace component differs. -/
theorem C9_verbose_noninterference (cfg : Nat) (p : ByteStr) (t : FSTree) :
    Except.map Prod.fst (hash_path cfg true p t)
      = Except.map Prod.fst (hash_path cfg false p t) :=
  hash_path_verbose_indep cfg p t true false

/-- C10: the combiner over no entries finalizes a hasher that received no
bytes, so an empty directory digests to SHA-256 of the empty byte string —
exactly the digest of an empty regular file and of a symlink with an empty
target. -/
theorem C10_empty_digests_coincide (cfg : Nat) (v : Bool) (p : ByteStr) :
    hashValue cfg v p (.dir []) = .ok (hexEncode (sha256 []))
    ∧ hashValue cfg v p (.file []) = .ok (hexEncode (sha256 []))
    ∧ hashValue cfg v p (.symlink []) = .ok (hexEncode (sha256 []))
    ∧ build_merkle_hash [] = hexEncode (sha256 []) := by
  have hbuild : build_merkle_hash [] = hexEncode (sha256 []) := by
    rw [build_merkle_hash_eq_input]
    rfl
  refine ⟨?_, ?_, ?_, hbuild⟩
  · unfold hashValue
    rw [hash_path_digest, digestOf_dir_unfold,
      show sortEntries [] = [] from rfl,
      show digestChildren [] = .ok [] from by rw [digestChildren]]
    dsimp only [mapExcept]
    rw [hbuild]
  · unfold hashValue
    rw [hash_path_digest,
      show digestOf (.file []) = .ok (hexEncode (sha256 [])) from by rw [digestOf]]
  · unfold hashValue
    rw [hash_path_digest,
      show digestOf (.symlink [])
          = (if validUtf8 [] then .ok (hexEncode (sha256 []))
             else .error HashError.invalidEncoding) from by rw [digestOf],
      if_pos (show validUtf8 [] = true from rfl)]
